import Mathlib

/-!
Verification of the `smooth-numbers` crate (src/lib.rs).

The library is shallowly embedded: `u64` values are natural numbers together
with an explicit overflow check (`mulU64`), since the crate is compiled with
overflow checks on (its test suite pins the panic message
"attempt to multiply with overflow").  A Rust panic is modelled as an
`Except.error` carrying the panic cause; slice indexing `v[i]` is `vget`,
which fails with `Err.indexOOB` when out of bounds, and the
`.expect("cannot find next index")` branch is `Err.expectFail`.
-/

set_option maxRecDepth 100000

namespace SmoothNumbers

/-- `u64::MAX = 2^64 - 1`. -/
def U64MAX : Nat := 18446744073709551615

/-- The cause of a Rust panic in the embedded code. -/
inductive Err where
  | overflow
  | indexOOB
  | expectFail
deriving DecidableEq

instance {α : Type} [DecidableEq α] : DecidableEq (Except Err α) := fun a b =>
  match a, b with
  | .ok x, .ok y =>
    if h : x = y then .isTrue (by rw [h])
    else .isFalse (by intro hh; cases hh; exact h rfl)
  | .ok _, .error _ => .isFalse (by intro hh; cases hh)
  | .error _, .ok _ => .isFalse (by intro hh; cases hh)
  | .error e, .error f =>
    if h : e = f then .isTrue (by rw [h])
    else .isFalse (by intro hh; cases hh; exact h rfl)

/-- `u64` multiplication `a * b`, which panics on overflow
(the crate is built with overflow checks, as its tests pin). -/
def mulU64 (a b : Nat) : Except Err Nat :=
  if a * b ≤ U64MAX then .ok (a * b) else .error .overflow

/-- Rust slice/`Vec` indexing `v[i]`, which panics when `i` is out of bounds. -/
def vget (v : List Nat) (i : Nat) : Except Err Nat :=
  match v[i]? with
  | some x => .ok x
  | none => .error .indexOOB

/-- The `for _ in 1..n` loop of `pratt` (src/lib.rs:44-62): state is the
output vector `v` and the two cursors `two`, `three`; `fuel` counts the
remaining iterations.  Each iteration computes `times_two = 2 * v[two]` and
`times_three = 3 * v[three]`, pushes the smaller one and advances the cursor
of every factor attaining it. -/
def prattLoop : Nat → List Nat → Nat → Nat → Except Err (List Nat)
  | 0, v, _, _ => .ok v
  | fuel + 1, v, two, three => do
    let vtwo ← vget v two
    let timesTwo ← mulU64 2 vtwo
    let vthree ← vget v three
    let timesThree ← mulU64 3 vthree
    if timesTwo < timesThree then
      prattLoop fuel (v ++ [timesTwo]) (two + 1) three
    else if timesTwo = timesThree then
      prattLoop fuel (v ++ [timesTwo]) (two + 1) (three + 1)
    else
      prattLoop fuel (v ++ [timesThree]) two (three + 1)

/-- `pratt(n)` (src/lib.rs:33-64). -/
def pratt (n : Nat) : Except Err (List Nat) :=
  if n = 0 then .ok []
  else prattLoop (n - 1) [1] 0 0

/-- The single-generator fast path (src/lib.rs:113-122 for `smooth` with
`k == 2`, src/lib.rs:193-202 for `with_primes` with one prime): state is the
output vector `v` and the running power `x`; each iteration performs
`x *= p` and pushes `x`. -/
def powersLoop : Nat → Nat → List Nat → Nat → Except Err (List Nat)
  | 0, _, v, _ => .ok v
  | fuel + 1, p, v, x => do
    let x' ← mulU64 x p
    powersLoop fuel p (v ++ [x']) x'

/-- The candidate products `primes[j] * v[indices[j]]` for `j` in
`0..num_primes`, computed in index order exactly as `min_by_key` consumes
them (src/lib.rs:209-210 and 136-137); the first panic (out-of-bounds index
or overflowing product) aborts. -/
def candidates (v : List Nat) : List Nat → List Nat → Except Err (List Nat)
  | [], _ => .ok []
  | _ :: _, [] => .ok []
  | p :: ps, i :: is => do
    let x ← vget v i
    let c ← mulU64 p x
    let cs ← candidates v ps is
    pure (c :: cs)

/-- The minimum of a list of candidate keys, as computed by
`(0..num_primes).min_by_key(...)`: `none` exactly when the range is empty. -/
def listMin : List Nat → Option Nat
  | [] => none
  | c :: cs =>
    match listMin cs with
    | none => some c
    | some m => some (min c m)

/-- The cursor-advancing loop (src/lib.rs:214-218 and 141-145): every
generator whose candidate equals the newly pushed minimum advances by one. -/
def advance (m : Nat) : List Nat → List Nat → List Nat
  | [], is => is
  | _ :: _, [] => []
  | c :: cs, i :: is => (if c = m then i + 1 else i) :: advance m cs is

/-- One iteration of the general merge loop (src/lib.rs:208-219 and 135-146):
compute all candidates, take their minimum (`.expect` panics if there is
none), push it, and advance every cursor whose candidate equals it. -/
def mergeStep (ps v idx : List Nat) : Except Err (List Nat × List Nat) := do
  let cs ← candidates v ps idx
  match listMin cs with
  | none => .error .expectFail
  | some m => pure (v ++ [m], advance m cs idx)

/-- The `for _ in 1..n` merge loop shared by `smooth` (k ≥ 3) and
`with_primes` (≥ 2 primes); in the Rust source the loop body is duplicated
verbatim at src/lib.rs:135-146 and 208-219. -/
def mergeLoop (ps : List Nat) : Nat → List Nat → List Nat → Except Err (List Nat)
  | 0, v, _ => .ok v
  | fuel + 1, v, idx =>
    match mergeStep ps v idx with
    | .error e => .error e
    | .ok (v', idx') => mergeLoop ps fuel v' idx'

/-- `with_primes(primes, n)` (src/lib.rs:182-221). -/
def with_primes (ps : List Nat) (n : Nat) : Except Err (List Nat) :=
  if n = 0 then .ok []
  else if ps.length = 0 then .ok [1]
  else if ps.length = 1 then powersLoop (n - 1) (ps.getD 0 0) [1] 1
  else mergeLoop ps (n - 1) [1] (List.replicate ps.length 0)

/-- Executable primality test by trial division (used to model the sieve). -/
def isPrimeB (p : Nat) : Bool :=
  decide (2 ≤ p) && (List.range p).all fun d => !(decide (2 ≤ d) && decide (p % d = 0))

/-- Modelled from the spec: the sieve collaborator
(`primal::Sieve::new(k)` followed by `primes_from(2).take_while(p <= k)`,
src/lib.rs:124-129, an external crate whose code is not in this repository)
"must produce the ascending set of primes ≤ k" (spec §6). -/
def sievePrimes (k : Nat) : List Nat :=
  (List.range (k + 1)).filter isPrimeB

/-- `smooth(k, n)` (src/lib.rs:104-148); the `k ≥ 3` arm runs the same merge
loop as `with_primes` on the sieved primes. -/
def smooth (k n : Nat) : Except Err (List Nat) :=
  if n = 0 then .ok []
  else if k < 2 then .ok [1]
  else if k = 2 then powersLoop (n - 1) 2 [1] 1
  else mergeLoop (sievePrimes k) (n - 1) [1] (List.replicate (sievePrimes k).length 0)

/-- `true` exactly on calls that return normally (do not panic). -/
def resultOk : Except Err (List Nat) → Bool
  | .ok _ => true
  | .error _ => false

/-- The panic cause of a call, if it panics. -/
def panicKind : Except Err (List Nat) → Option Err
  | .ok _ => none
  | .error e => some e

/-- Indexing a reversed vector: `vgetR rv len i` reads position `i` of the
vector whose reversal is `rv` and whose length is `len`.  Used only by the
evaluation-friendly variant `prattLoopF`, proved equal to `prattLoop`. -/
def vgetR (rv : List Nat) (len i : Nat) : Except Err Nat :=
  if i < len then vget rv (len - 1 - i) else .error .indexOOB

/-- Evaluation-friendly form of `prattLoop` that stores the output vector
reversed (most recent element first) and carries its length; proved
pointwise equal to `prattLoop` in `prattLoopF_eq`. -/
def prattLoopF : Nat → List Nat → Nat → Nat → Nat → Except Err (List Nat)
  | 0, rv, _, _, _ => .ok rv
  | fuel + 1, rv, len, two, three => do
    let vtwo ← vgetR rv len two
    let timesTwo ← mulU64 2 vtwo
    let vthree ← vgetR rv len three
    let timesThree ← mulU64 3 vthree
    if timesTwo < timesThree then
      prattLoopF fuel (timesTwo :: rv) (len + 1) (two + 1) three
    else if timesTwo = timesThree then
      prattLoopF fuel (timesTwo :: rv) (len + 1) (two + 1) (three + 1)
    else
      prattLoopF fuel (timesThree :: rv) (len + 1) two (three + 1)

/-- The head of a successful result (`none` on panic). -/
def okHead : Except Err (List Nat) → Option Nat
  | .ok l => l.head?
  | .error _ => none

/-- Keep only the head of a successful result, preserving the panic cause. -/
def okHeadE : Except Err (List Nat) → Except Err (Option Nat)
  | .ok l => .ok l.head?
  | .error e => .error e

/-- State of the windowed form of `prattLoopF`: since the cursors only move
forward, the elements of the output vector below `min two three` are never
read again, so `w` keeps only the reversed window of positions
`min two three ≤ i < len`. -/
structure PSt where
  w : List Nat
  len : Nat
  two : Nat
  three : Nat
deriving DecidableEq, Repr

/-- One iteration of `prattLoopF` on the windowed state. -/
def prattStepW (s : PSt) : Except Err PSt := do
  let vtwo ← vgetR s.w s.len s.two
  let timesTwo ← mulU64 2 vtwo
  let vthree ← vgetR s.w s.len s.three
  let timesThree ← mulU64 3 vthree
  if timesTwo < timesThree then
    pure ⟨(timesTwo :: s.w).take (s.len + 1 - min (s.two + 1) s.three),
      s.len + 1, s.two + 1, s.three⟩
  else if timesTwo = timesThree then
    pure ⟨(timesTwo :: s.w).take (s.len + 1 - min (s.two + 1) (s.three + 1)),
      s.len + 1, s.two + 1, s.three + 1⟩
  else
    pure ⟨(timesThree :: s.w).take (s.len + 1 - min s.two (s.three + 1)),
      s.len + 1, s.two, s.three + 1⟩

/-- `fuel` iterations of `prattStepW`. -/
def prattIterW : Nat → PSt → Except Err PSt
  | 0, s => .ok s
  | fuel + 1, s =>
    match prattStepW s with
    | .error e => .error e
    | .ok s' => prattIterW fuel s'

/-- Keep only the head of the final window (= the last pushed element). -/
def okHeadW : Except Err PSt → Except Err (Option Nat)
  | .ok s => .ok s.w.head?
  | .error e => .error e

/-- Windowed form of `prattLoopF`, returning only the last pushed element;
proved equal to `okHeadE ∘ prattLoopF` in `prattLoopW_eq`. -/
def prattLoopW (fuel : Nat) (w : List Nat) (len two three : Nat) :
    Except Err (Option Nat) :=
  okHeadW (prattIterW fuel ⟨w, len, two, three⟩)

/-- The windowed state reached after 672 iterations of the `pratt` loop
(checkpoint for evaluating the loop in bounded-depth chunks). -/
def prattState672 : PSt :=
  ⟨[32134205039616, 31701690482688, 30502389939948, 30091839012864,
    29686813949952, 28563737812992, 28179280429056, 27113235502176,
    26748301344768, 26388279066624, 25389989167104, 25048249270272,
    24100653779712, 23776267862016, 22876792454961, 22568879259648,
    22265110462464, 21422803359744, 21134460321792, 20334926626632,
    20061226008576, 19791209299968, 19042491875328, 18786186952704,
    18075490334784, 17832200896512, 17592186044416, 16926659444736,
    16698832846848, 16067102519808, 15850845241344, 15251194969974,
    15045919506432, 14843406974976, 14281868906496, 14089640214528,
    13556617751088, 13374150672384, 13194139533312, 12694994583552,
    12524124635136, 12050326889856, 11888133931008, 11284439629824,
    11132555231232], 673, 644, 628⟩

/-- The windowed state reached after 1343 iterations of the `pratt` loop:
its window head `17991041643939889152` is the 1344th element of the
sequence, and the next iteration overflows. -/
def prattState1343 : PSt :=
  ⟨[17991041643939889152, 17748888853923495936, 17509995351216488448,
    17077434060458566656, 16847578091810193408, 16620815899787526144,
    16210220612075905068, 15992037016835457024, 15776790092376440832,
    15564440312192434176, 15179941387074281472, 14975624970497949696,
    14774058577588912128, 14409084988511915616, 14215144014964850688,
    14023813415445725184, 13835058055282163712, 13493281232954916864,
    13311666640442621952, 13132496513412366336, 12808075545343924992,
    12635683568857645056, 12465611924840644608, 12157665459056928801,
    11994027762626592768, 11832592569282330624, 11673330234144325632,
    11384956040305711104, 11231718727873462272, 11080543933191684096,
    10806813741383936712, 10661358011223638016, 10517860061584293888,
    10376293541461622784, 10119960924716187648, 9983749980331966464,
    9849372385059274752, 9606056659007943744, 9476762676643233792,
    9349208943630483456, 9223372036854775808, 8995520821969944576,
    8874444426961747968, 8754997675608244224, 8538717030229283328,
    8423789045905096704, 8310407949893763072, 8105110306037952534,
    7996018508417728512, 7888395046188220416, 7782220156096217088,
    7589970693537140736, 7487812485248974848, 7387029288794456064,
    7204542494255957808, 7107572007482425344, 7011906707722862592,
    6917529027641081856, 6746640616477458432, 6655833320221310976,
    6566248256706183168, 6404037772671962496, 6317841784428822528,
    6232805962420322304], 1344, 1303, 1280⟩

/-- The values expressible as products of non-negative integer powers of the
generators in `ps` (the intended output set of the merge algorithm). -/
inductive Reachable (ps : List Nat) : Nat → Prop where
  | one : Reachable ps 1
  | mul {p x : Nat} : p ∈ ps → Reachable ps x → Reachable ps (p * x)

/-- Invariant of one merge cursor `i` for generator `p` over the output
vector `v`: the cursor is in bounds, its candidate exceeds every emitted
value, and every product from the consumed part of `v` has been emitted. -/
def CurInv (v : List Nat) (p i : Nat) : Prop :=
  i < v.length ∧ v.getLastD 0 < p * v.getD i 0 ∧ ∀ y ∈ v.take i, p * y ≤ v.getLastD 0

/-- Invariant of the merge loop state: `v` is a nonempty strictly sorted
vector starting at 1 of bounded reachable values that contains every
reachable value up to its last element, and every cursor satisfies
`CurInv`. -/
def StInv (ps v idx : List Nat) : Prop :=
  v ≠ [] ∧ v.head? = some 1 ∧ List.Sorted (· < ·) v ∧ (∀ x ∈ v, x ≤ U64MAX) ∧
  (∀ x ∈ v, Reachable ps x) ∧ (∀ x, Reachable ps x → x ≤ v.getLastD 0 → x ∈ v) ∧
  List.Forall₂ (CurInv v) ps idx

/-! ### Basic access lemmas -/

theorem bindE_ok {α β : Type} (a : α) (f : α → Except Err β) :
    (do let x ← Except.ok a; f x) = f a := rfl

theorem bindE_error {α β : Type} (e : Err) (f : α → Except Err β) :
    (do let x ← (Except.error e : Except Err α); f x) = Except.error e := rfl

theorem mapE_ok (f : List Nat → List Nat) (l : List Nat) :
    (Except.ok l : Except Err (List Nat)).map f = .ok (f l) := rfl

theorem mapE_error (f : List Nat → List Nat) (e : Err) :
    (Except.error e : Except Err (List Nat)).map f = .error e := rfl

theorem vget_of_getElem? {v : List Nat} {i : Nat} {x : Nat} (h : v[i]? = some x) :
    vget v i = .ok x := by
  simp [vget, h]

theorem vget_lt {v : List Nat} {i : Nat} (h : i < v.length) :
    vget v i = .ok (v.getD i 0) := by
  simp [vget, List.getElem?_eq_getElem h, List.getD_eq_getElem?_getD]

theorem vget_ge {v : List Nat} {i : Nat} (h : v.length ≤ i) :
    vget v i = .error .indexOOB := by
  simp [vget, List.getElem?_eq_none h]

theorem vgetR_eq (v : List Nat) (i : Nat) : vgetR v.reverse v.length i = vget v i := by
  by_cases h : i < v.length
  · have h1 : v.length - 1 - i < v.length := by omega
    have h2 : v.length - 1 - (v.length - 1 - i) = i := by omega
    rw [vgetR, if_pos h]
    unfold vget
    rw [List.getElem?_reverse h1, h2]
  · rw [vgetR, if_neg h, vget_ge (by simpa using Nat.le_of_not_lt h)]

theorem prattLoopF_eq : ∀ (fuel : Nat) (v : List Nat) (a b : Nat),
    prattLoop fuel v a b = (prattLoopF fuel v.reverse v.length a b).map List.reverse := by
  intro fuel
  induction fuel with
  | zero => intro v a b; simp [prattLoop, prattLoopF, Except.map]
  | succ fuel ih =>
    intro v a b
    rw [prattLoop, prattLoopF, ← vgetR_eq v a, ← vgetR_eq v b]
    cases vgetR v.reverse v.length a with
    | error e => rw [bindE_error, bindE_error, mapE_error]
    | ok x =>
      rw [bindE_ok, bindE_ok]
      cases hm2 : mulU64 2 x with
      | error e => rw [bindE_error, bindE_error, mapE_error]
      | ok t2 =>
        rw [bindE_ok, bindE_ok]
        cases vgetR v.reverse v.length b with
        | error e => rw [bindE_error, bindE_error, mapE_error]
        | ok y =>
          rw [bindE_ok, bindE_ok]
          cases hm3 : mulU64 3 y with
          | error e => rw [bindE_error, bindE_error, mapE_error]
          | ok t3 =>
            rw [bindE_ok, bindE_ok]
            by_cases h1 : t2 < t3
            · rw [if_pos h1, if_pos h1, ih (v ++ [t2])]
              simp [List.reverse_append]
            · rw [if_neg h1, if_neg h1]
              by_cases h2 : t2 = t3
              · rw [if_pos h2, if_pos h2, ih (v ++ [t2])]
                simp [List.reverse_append]
              · rw [if_neg h2, if_neg h2, ih (v ++ [t3])]
                simp [List.reverse_append]

theorem pratt_eq_F {n : Nat} (h : 1 ≤ n) :
    pratt n = (prattLoopF (n - 1) [1] 1 0 0).map List.reverse := by
  rw [pratt, if_neg (by omega)]
  have := prattLoopF_eq (n - 1) [1] 0 0
  simpa using this

theorem head?_take {l : List Nat} {k : Nat} (hk : 0 < k) : (l.take k).head? = l.head? := by
  cases l with
  | nil => simp
  | cons a t =>
    cases k with
    | zero => omega
    | succ k => simp

theorem vgetR_take {rv : List Nat} {len i base : Nat} (hbi : base ≤ i) (hbl : base < len) :
    vgetR (rv.take (len - base)) len i = vgetR rv len i := by
  unfold vgetR
  by_cases h : i < len
  · rw [if_pos h, if_pos h]
    unfold vget
    rw [List.getElem?_take_of_lt (by omega)]
  · rw [if_neg h, if_neg h]

theorem take_cons_take {rv : List Nat} {len base b' : Nat} (hbb : base ≤ b') (hbl : b' ≤ len)
    (t : Nat) :
    (t :: rv.take (len - base)).take (len + 1 - b') = (t :: rv).take (len + 1 - b') := by
  have h1 : len + 1 - b' = (len - b') + 1 := by omega
  have h2 : min (len - b') (len - base) = len - b' :=
    Nat.min_eq_left (Nat.sub_le_sub_left hbb len)
  rw [h1, List.take_succ_cons, List.take_succ_cons, List.take_take, h2]

theorem prattIterW_add (a b : Nat) (s : PSt) :
    prattIterW (a + b) s =
      match prattIterW a s with
      | .error e => .error e
      | .ok s' => prattIterW b s' := by
  induction a generalizing s with
  | zero => rw [Nat.zero_add]; rfl
  | succ a ih =>
    have hab : a + 1 + b = (a + b) + 1 := by omega
    rw [hab, prattIterW, prattIterW]
    cases prattStepW s with
    | error e => rfl
    | ok s' => exact ih s'

theorem prattLoopW_eq : ∀ (fuel : Nat) (rv : List Nat) (len two three base : Nat),
    base ≤ two → base ≤ three → base < len →
    prattLoopW fuel (rv.take (len - base)) len two three =
      okHeadE (prattLoopF fuel rv len two three) := by
  intro fuel
  induction fuel with
  | zero =>
    intro rv len two three base h2 h3 hl
    simp only [prattLoopW, prattIterW, okHeadW, prattLoopF, okHeadE]
    rw [head?_take (by omega)]
  | succ fuel ih =>
    intro rv len two three base h2 h3 hl
    rw [prattLoopW, prattIterW, prattLoopF]
    simp only [prattStepW]
    rw [vgetR_take h2 hl, vgetR_take h3 hl]
    cases h2v : vgetR rv len two with
    | error e => rw [bindE_error, bindE_error]; rfl
    | ok x =>
      have htwo : two < len := by
        by_contra hc
        rw [vgetR, if_neg hc] at h2v
        simp at h2v
      rw [bindE_ok, bindE_ok]
      cases mulU64 2 x with
      | error e => rw [bindE_error, bindE_error]; rfl
      | ok t2 =>
        rw [bindE_ok, bindE_ok]
        cases h3v : vgetR rv len three with
        | error e => rw [bindE_error, bindE_error]; rfl
        | ok y =>
          have hthree : three < len := by
            by_contra hc
            rw [vgetR, if_neg hc] at h3v
            simp at h3v
          rw [bindE_ok, bindE_ok]
          cases mulU64 3 y with
          | error e => rw [bindE_error, bindE_error]; rfl
          | ok t3 =>
            rw [bindE_ok, bindE_ok]
            by_cases hlt : t2 < t3
            · rw [if_pos hlt, if_pos hlt,
                take_cons_take (by omega) (by omega) t2]
              exact ih (t2 :: rv) (len + 1) (two + 1) three (min (two + 1) three)
                (Nat.min_le_left _ _) (Nat.min_le_right _ _) (by omega)
            · rw [if_neg hlt, if_neg hlt]
              by_cases heq : t2 = t3
              · rw [if_pos heq, if_pos heq,
                  take_cons_take (by omega) (by omega) t2]
                exact ih (t2 :: rv) (len + 1) (two + 1) (three + 1) (min (two + 1) (three + 1))
                  (Nat.min_le_left _ _) (Nat.min_le_right _ _) (by omega)
              · rw [if_neg heq, if_neg heq,
                  take_cons_take (by omega) (by omega) t3]
                exact ih (t3 :: rv) (len + 1) two (three + 1) (min two (three + 1))
                  (Nat.min_le_left _ _) (Nat.min_le_right _ _) (by omega)

-- HEAVY-BEGIN
set_option maxHeartbeats 40000000 in
theorem prattIterW_chunk1 : prattIterW 672 ⟨[1], 1, 0, 0⟩ = .ok prattState672 := by
  decide

set_option maxHeartbeats 40000000 in
theorem prattIterW_chunk2 : prattIterW 671 prattState672 = .ok prattState1343 := by
  decide

theorem prattStepW_1344_overflow : prattStepW prattState1343 = .error .overflow := by
  decide

theorem prattIterW_1343 : prattIterW 1343 ⟨[1], 1, 0, 0⟩ = .ok prattState1343 := by
  have h : (1343 : Nat) = 672 + 671 := by norm_num
  rw [h, prattIterW_add, prattIterW_chunk1]
  exact prattIterW_chunk2

theorem prattIterW_1344 : prattIterW 1344 ⟨[1], 1, 0, 0⟩ = .error .overflow := by
  have h : (1344 : Nat) = 1343 + 1 := by norm_num
  rw [h, prattIterW_add, prattIterW_1343]
  show prattIterW 1 prattState1343 = .error .overflow
  decide

theorem okHeadE_prattLoopF_1343 :
    okHeadE (prattLoopF 1343 [1] 1 0 0) = .ok (some 17991041643939889152) := by
  have h := prattLoopW_eq 1343 [1] 1 0 0 0 (by omega) (by omega) (by omega)
  rw [show ([1] : List Nat).take (1 - 0) = [1] from rfl] at h
  rw [← h, prattLoopW, prattIterW_1343]
  rfl

theorem okHeadE_prattLoopF_1344 :
    okHeadE (prattLoopF 1344 [1] 1 0 0) = .error .overflow := by
  have h := prattLoopW_eq 1344 [1] 1 0 0 0 (by omega) (by omega) (by omega)
  rw [show ([1] : List Nat).take (1 - 0) = [1] from rfl] at h
  rw [← h, prattLoopW, prattIterW_1344]
  rfl

theorem pratt_1344_fact :
    ∃ l, pratt 1344 = .ok l ∧ l.getLast? = some 17991041643939889152 := by
  rw [pratt_eq_F (by omega), show (1344 : Nat) - 1 = 1343 from rfl]
  cases hF : prattLoopF 1343 [1] 1 0 0 with
  | error e =>
    have := okHeadE_prattLoopF_1343
    rw [hF] at this
    simp [okHeadE] at this
  | ok rl =>
    refine ⟨rl.reverse, by rw [mapE_ok], ?_⟩
    have := okHeadE_prattLoopF_1343
    rw [hF] at this
    rw [List.getLast?_reverse]
    exact Except.ok.inj this

theorem pratt_1345_overflow : pratt 1345 = .error .overflow := by
  rw [pratt_eq_F (by omega), show (1345 : Nat) - 1 = 1344 from rfl]
  cases hF : prattLoopF 1344 [1] 1 0 0 with
  | error e =>
    have := okHeadE_prattLoopF_1344
    rw [hF] at this
    simp only [okHeadE, Except.error.injEq] at this
    subst this
    exact mapE_error _ _
  | ok rl =>
    have := okHeadE_prattLoopF_1344
    rw [hF] at this
    simp [okHeadE] at this

-- HEAVY-END

/-! ### Lemmas about the elementary operations -/

theorem mulU64_ok_iff {a b c : Nat} : mulU64 a b = .ok c ↔ a * b ≤ U64MAX ∧ c = a * b := by
  unfold mulU64
  by_cases h : a * b ≤ U64MAX
  · rw [if_pos h]
    constructor
    · intro he
      exact ⟨h, (Except.ok.inj he).symm⟩
    · intro ⟨_, hc⟩
      rw [hc]
  · rw [if_neg h]
    constructor
    · intro he; cases he
    · intro ⟨hh, _⟩; exact absurd hh h

theorem mulU64_error_iff {a b : Nat} {e : Err} :
    mulU64 a b = .error e ↔ U64MAX < a * b ∧ e = .overflow := by
  unfold mulU64
  by_cases h : a * b ≤ U64MAX
  · rw [if_pos h]
    constructor
    · intro he; cases he
    · intro ⟨hh, _⟩; omega
  · rw [if_neg h]
    constructor
    · intro he
      exact ⟨by omega, (Except.error.inj he).symm⟩
    · intro ⟨_, he⟩
      rw [he]

theorem listMin_eq_none_iff {cs : List Nat} : listMin cs = none ↔ cs = [] := by
  cases cs with
  | nil => simp [listMin]
  | cons c cs =>
    rw [listMin]
    cases listMin cs <;> simp

theorem listMin_mem : ∀ {cs : List Nat} {m : Nat}, listMin cs = some m → m ∈ cs := by
  intro cs
  induction cs with
  | nil => intro m h; cases h
  | cons c cs ih =>
    intro m h
    rw [listMin] at h
    cases hcs : listMin cs with
    | none => rw [hcs] at h; simp at h; simp [h]
    | some m' =>
      rw [hcs] at h
      simp only [Option.some.injEq] at h
      have hm : m = c ∨ m = m' := by omega
      rcases hm with rfl | rfl
      · simp
      · exact List.mem_cons_of_mem c (ih hcs)

theorem listMin_le : ∀ {cs : List Nat} {m : Nat}, listMin cs = some m → ∀ c ∈ cs, m ≤ c := by
  intro cs
  induction cs with
  | nil => intro m h; cases h
  | cons c cs ih =>
    intro m h x hx
    rw [listMin] at h
    cases hcs : listMin cs with
    | none =>
      rw [hcs] at h
      simp only [Option.some.injEq] at h
      rw [listMin_eq_none_iff] at hcs
      rw [hcs] at hx
      simp at hx
      omega
    | some m' =>
      rw [hcs] at h
      simp only [Option.some.injEq] at h
      rcases List.mem_cons.1 hx with rfl | hx'
      · omega
      · have h1 : m' ≤ x := ih hcs x hx'
        omega

theorem listMin_exists {cs : List Nat} (h : cs ≠ []) : ∃ m, listMin cs = some m := by
  cases hm : listMin cs with
  | none => exact absurd (listMin_eq_none_iff.1 hm) h
  | some m => exact ⟨m, rfl⟩

/-! ### `Forall₂` helpers -/

theorem forall₂_replicate {R : Nat → Nat → Prop} {ps : List Nat} {c : Nat}
    (h : ∀ p ∈ ps, R p c) : List.Forall₂ R ps (List.replicate ps.length c) := by
  induction ps with
  | nil => exact List.Forall₂.nil
  | cons p ps ih =>
    rw [List.length_cons, List.replicate_succ]
    exact List.Forall₂.cons (h p (by simp)) (ih fun q hq => h q (by simp [hq]))

theorem forall₂_mem_zipWith {R : Nat → Nat → Prop} {f : Nat → Nat → Nat} :
    ∀ {ps idx : List Nat}, List.Forall₂ R ps idx →
      ∀ c ∈ List.zipWith f ps idx, ∃ p i, p ∈ ps ∧ R p i ∧ c = f p i := by
  intro ps idx h
  induction h with
  | nil => intro c hc; simp at hc
  | cons hpi _ ih =>
    intro c hc
    rw [List.zipWith_cons_cons] at hc
    rcases List.mem_cons.1 hc with rfl | hc'
    · exact ⟨_, _, by simp, hpi, rfl⟩
    · rcases ih c hc' with ⟨p, i, hp, hR, hc⟩
      exact ⟨p, i, by simp [hp], hR, hc⟩

theorem forall₂_zipWith_mem {R : Nat → Nat → Prop} {f : Nat → Nat → Nat} :
    ∀ {ps idx : List Nat}, List.Forall₂ R ps idx →
      ∀ {p : Nat}, p ∈ ps → ∃ i, R p i ∧ f p i ∈ List.zipWith f ps idx := by
  intro ps idx h
  induction h with
  | nil => intro p hp; simp at hp
  | @cons a b ps' idx' hpi _ ih =>
    intro p hp
    rw [List.zipWith_cons_cons]
    rcases List.mem_cons.1 hp with rfl | hp'
    · exact ⟨b, hpi, by simp⟩
    · rcases ih hp' with ⟨i, hR, hmem⟩
      exact ⟨i, hR, by simp [hmem]⟩

theorem forall₂_imp {R S : Nat → Nat → Prop} :
    ∀ {ps idx : List Nat}, List.Forall₂ R ps idx → (∀ p i, R p i → S p i) →
      List.Forall₂ S ps idx := by
  intro ps idx h himp
  induction h with
  | nil => exact List.Forall₂.nil
  | cons hpi _ ih => exact List.Forall₂.cons (himp _ _ hpi) ih

/-! ### The candidate computation -/

theorem candidates_spec {v : List Nat} :
    ∀ {ps idx : List Nat}, List.Forall₂ (fun _ i => i < v.length) ps idx →
      candidates v ps idx = .error .overflow ∨
      (candidates v ps idx = .ok (List.zipWith (fun p i => p * v.getD i 0) ps idx) ∧
        ∀ c ∈ List.zipWith (fun p i => p * v.getD i 0) ps idx, c ≤ U64MAX) := by
  intro ps idx h
  induction h with
  | nil => right; exact ⟨rfl, by simp⟩
  | @cons p i ps' idx' hpi _ ih =>
    rw [candidates, vget_lt hpi, bindE_ok]
    cases hm : mulU64 p (v.getD i 0) with
    | error e =>
      left
      rw [bindE_error]
      rw [mulU64_error_iff] at hm
      rw [hm.2]
    | ok c =>
      rw [bindE_ok]
      rw [mulU64_ok_iff] at hm
      rcases ih with herr | ⟨hok, hbound⟩
      · left
        rw [herr, bindE_error]
      · right
        rw [hok, bindE_ok, List.zipWith_cons_cons]
        constructor
        · rw [hm.2]
          rfl
        · intro c' hc'
          rcases List.mem_cons.1 hc' with rfl | hc''
          · exact hm.1
          · exact hbound c' hc''

theorem advance_forall₂ {R R' : Nat → Nat → Prop} {f : Nat → Nat → Nat} {m : Nat} :
    ∀ {ps idx : List Nat}, List.Forall₂ R ps idx →
      (∀ p i, p ∈ ps → f p i ∈ List.zipWith f ps idx → R p i →
        R' p (if f p i = m then i + 1 else i)) →
      List.Forall₂ R' ps (advance m (List.zipWith f ps idx) idx) := by
  intro ps idx h
  induction h with
  | nil => intro _; exact List.Forall₂.nil
  | @cons p i ps' idx' hpi htail ih =>
    intro himp
    rw [List.zipWith_cons_cons, advance]
    refine List.Forall₂.cons (himp p i (by simp) (by simp) hpi) (ih ?_)
    intro p' i' hm hzm hR
    exact himp p' i' (List.mem_cons_of_mem _ hm)
      (by rw [List.zipWith_cons_cons]; exact List.mem_cons_of_mem _ hzm) hR

/-! ### The merge loop: bounds, lengths and the only possible panic -/

theorem mergeStep_basic {ps v idx : List Nat} (hne : ps ≠ [])
    (hb : List.Forall₂ (fun _ i => i < v.length) ps idx) (hv : ∀ x ∈ v, x ≤ U64MAX) :
    mergeStep ps v idx = .error .overflow ∨
    ∃ m, m ≤ U64MAX ∧
      mergeStep ps v idx =
        .ok (v ++ [m], advance m (List.zipWith (fun p i => p * v.getD i 0) ps idx) idx) ∧
      List.Forall₂ (fun _ i => i < (v ++ [m]).length) ps
        (advance m (List.zipWith (fun p i => p * v.getD i 0) ps idx) idx) ∧
      (∀ x ∈ v ++ [m], x ≤ U64MAX) := by
  rcases candidates_spec hb with herr | ⟨hok, hboundall⟩
  · left; rw [mergeStep, herr, bindE_error]
  · right
    have hlen := List.Forall₂.length_eq hb
    have hcs_ne : List.zipWith (fun p i => p * v.getD i 0) ps idx ≠ [] := by
      cases ps with
      | nil => exact absurd rfl hne
      | cons p ps' =>
        cases idx with
        | nil => simp at hlen
        | cons i is => simp [List.zipWith_cons_cons]
    rcases listMin_exists hcs_ne with ⟨m, hm⟩
    refine ⟨m, hboundall m (listMin_mem hm), ?_, ?_, ?_⟩
    · rw [mergeStep, hok, bindE_ok, hm]
      rfl
    · refine advance_forall₂ hb ?_
      intro p i _ _ hpi
      simp only [List.length_append, List.length_singleton]
      split <;> omega
    · intro x hx
      rcases List.mem_append.1 hx with hx | hx
      · exact hv x hx
      · rw [List.mem_singleton] at hx; rw [hx]
        exact hboundall m (listMin_mem hm)

theorem mergeLoop_basic : ∀ (fuel : Nat) {ps v idx : List Nat}, ps ≠ [] →
    List.Forall₂ (fun _ i => i < v.length) ps idx → (∀ x ∈ v, x ≤ U64MAX) →
    mergeLoop ps fuel v idx = .error .overflow ∨
    ∃ l, mergeLoop ps fuel v idx = .ok l ∧ l.length = v.length + fuel ∧
      ∀ x ∈ l, x ≤ U64MAX := by
  intro fuel
  induction fuel with
  | zero =>
    intro ps v idx hne hb hv
    right; exact ⟨v, rfl, by omega, hv⟩
  | succ fuel ih =>
    intro ps v idx hne hb hv
    rcases mergeStep_basic hne hb hv with herr | ⟨m, hmb, hstep, hb', hv'⟩
    · left; rw [mergeLoop, herr]
    · rw [mergeLoop, hstep]
      rcases ih hne hb' hv' with herr2 | ⟨l, hok, hlen, hbl⟩
      · left; exact herr2
      · right
        refine ⟨l, hok, ?_, hbl⟩
        simp only [List.length_append, List.length_singleton] at hlen
        omega

theorem mergeLoop_error_succ : ∀ {fuel : Nat} {ps v idx : List Nat} {e : Err},
    mergeLoop ps fuel v idx = .error e → mergeLoop ps (fuel + 1) v idx = .error e := by
  intro fuel
  induction fuel with
  | zero =>
    intro ps v idx e h
    rw [mergeLoop] at h
    cases h
  | succ fuel ih =>
    intro ps v idx e h
    rw [mergeLoop] at h
    rw [mergeLoop]
    cases hs : mergeStep ps v idx with
    | error e' => rw [hs] at h; exact h
    | ok pair =>
      rw [hs] at h
      obtain ⟨v', idx'⟩ := pair
      exact ih h

theorem powersLoop_basic : ∀ (fuel : Nat) {p : Nat} {v : List Nat} {x : Nat},
    (∀ y ∈ v, y ≤ U64MAX) →
    powersLoop fuel p v x = .error .overflow ∨
    ∃ l, powersLoop fuel p v x = .ok l ∧ l.length = v.length + fuel ∧
      ∀ y ∈ l, y ≤ U64MAX := by
  intro fuel
  induction fuel with
  | zero =>
    intro p v x hv
    right; exact ⟨v, rfl, by omega, hv⟩
  | succ fuel ih =>
    intro p v x hv
    rw [powersLoop]
    cases hm : mulU64 x p with
    | error e =>
      left
      rw [bindE_error]
      rw [mulU64_error_iff] at hm
      rw [hm.2]
    | ok x' =>
      rw [bindE_ok]
      have hx' : x' ≤ U64MAX := by
        rw [mulU64_ok_iff] at hm
        rw [hm.2]; exact hm.1
      have hv' : ∀ y ∈ v ++ [x'], y ≤ U64MAX := by
        intro y hy
        rcases List.mem_append.1 hy with hy | hy
        · exact hv y hy
        · rw [List.mem_singleton] at hy; subst hy; exact hx'
      rcases ih hv' with herr | ⟨l, hok, hlen, hbl⟩
      · left; exact herr
      · right
        refine ⟨l, hok, ?_, hbl⟩
        simp only [List.length_append, List.length_singleton] at hlen
        omega

theorem powersLoop_error_succ : ∀ {fuel : Nat} {p : Nat} {v : List Nat} {x : Nat} {e : Err},
    powersLoop fuel p v x = .error e → powersLoop (fuel + 1) p v x = .error e := by
  intro fuel
  induction fuel with
  | zero =>
    intro p v x e h
    rw [powersLoop] at h
    cases h
  | succ fuel ih =>
    intro p v x e h
    rw [powersLoop] at h
    rw [powersLoop]
    cases hm : mulU64 x p with
    | error e' => rw [hm] at h; exact h
    | ok x' =>
      rw [hm] at h
      rw [bindE_ok] at h
      rw [bindE_ok]
      exact ih h

/-! ### Entry-point plumbing -/

theorem pureE {α : Type} (a : α) : (pure a : Except Err α) = Except.ok a := rfl

theorem mulU64_comm (a b : Nat) : mulU64 a b = mulU64 b a := by
  unfold mulU64
  rw [Nat.mul_comm]

theorem withPrimes_zero (ps : List Nat) : with_primes ps 0 = .ok [] := by
  simp [with_primes]

theorem withPrimes_nil {n : Nat} (h : 1 ≤ n) : with_primes [] n = .ok [1] := by
  rw [with_primes, if_neg (by omega)]
  simp

theorem getD_last (v : List Nat) : v.getD (v.length - 1) 0 = v.getLastD 0 := by
  rw [List.getD_eq_getElem?_getD, List.getLastD_eq_getLast?, ← List.getLast?_eq_getElem?]

theorem powersLoop_eq_mergeLoop : ∀ (fuel : Nat) {p : Nat} {v : List Nat}, v ≠ [] →
    powersLoop fuel p v (v.getLastD 0) = mergeLoop [p] fuel v [v.length - 1] := by
  intro fuel
  induction fuel with
  | zero => intro p v _; rfl
  | succ fuel ih =>
    intro p v hv
    have hlt : v.length - 1 < v.length := by
      cases v with
      | nil => exact absurd rfl hv
      | cons a t => simp
    rw [powersLoop, mergeLoop, mergeStep]
    simp only [candidates]
    rw [vget_lt hlt, getD_last, mulU64_comm (v.getLastD 0) p]
    simp only [bindE_ok]
    cases hm : mulU64 p (v.getLastD 0) with
    | error e => rfl
    | ok c =>
      simp only [bindE_ok, pureE]
      rw [show listMin [c] = some c from rfl]
      show powersLoop fuel p (v ++ [c]) c =
        mergeLoop [p] fuel (v ++ [c]) [if c = c then v.length - 1 + 1 else v.length - 1]
      rw [if_pos rfl]
      have h1 : c = (v ++ [c]).getLastD 0 := by rw [List.getLastD_concat]
      have h2 : v.length - 1 + 1 = (v ++ [c]).length - 1 := by
        simp only [List.length_append, List.length_singleton]
        omega
      rw [h2]
      nth_rewrite 2 [h1]
      exact ih (v := v ++ [c]) (by simp)

theorem withPrimes_merge {ps : List Nat} {n : Nat} (hne : ps ≠ []) (hn : 1 ≤ n) :
    with_primes ps n = mergeLoop ps (n - 1) [1] (List.replicate ps.length 0) := by
  rw [with_primes, if_neg (by omega), if_neg (by simpa using hne)]
  by_cases h1 : ps.length = 1
  · rw [if_pos h1]
    obtain ⟨p, rfl⟩ : ∃ p, ps = [p] := by
      cases ps with
      | nil => exact absurd rfl hne
      | cons p t =>
        cases t with
        | nil => exact ⟨p, rfl⟩
        | cons q t' => simp at h1
    have := powersLoop_eq_mergeLoop (n - 1) (p := p) (v := [1]) (by simp)
    simpa using this
  · rw [if_neg h1]

theorem smooth_two_eq (n : Nat) : smooth 2 n = with_primes [2] n := by
  by_cases hn : n = 0
  · subst hn; rfl
  · rw [smooth, with_primes, if_neg hn, if_neg hn, if_neg (by omega), if_pos rfl,
      if_neg (by simp), if_pos (by simp)]
    rfl

/-! ### The sieve model -/

theorem isPrimeB_iff {p : Nat} : isPrimeB p = true ↔ Nat.Prime p := by
  rw [Nat.prime_def_lt]
  unfold isPrimeB
  simp only [Bool.and_eq_true, decide_eq_true_eq, List.all_eq_true, List.mem_range,
    Bool.not_eq_true', Bool.and_eq_false_iff, decide_eq_false_iff_not, Nat.not_le]
  constructor
  · intro ⟨h1, h2⟩
    refine ⟨h1, fun m hm hdvd => ?_⟩
    rcases h2 m hm with hlt | hmod
    · interval_cases m
      · exact absurd (zero_dvd_iff.1 hdvd) (by omega)
      · rfl
    · exact absurd (Nat.mod_eq_zero_of_dvd hdvd) hmod
  · intro ⟨h1, h2⟩
    refine ⟨h1, fun d hd => ?_⟩
    by_cases hd2 : 2 ≤ d
    · right
      intro hmod
      have hdvd : d ∣ p := Nat.dvd_of_mod_eq_zero hmod
      have := h2 d hd hdvd
      omega
    · left; omega

theorem sievePrimes_mem {k p : Nat} : p ∈ sievePrimes k ↔ Nat.Prime p ∧ p ≤ k := by
  unfold sievePrimes
  rw [List.mem_filter, List.mem_range, isPrimeB_iff]
  constructor
  · intro ⟨h1, h2⟩; exact ⟨h2, by omega⟩
  · intro ⟨h1, h2⟩; exact ⟨by omega, h1⟩

theorem sievePrimes_sorted (k : Nat) : List.Sorted (· < ·) (sievePrimes k) :=
  List.Pairwise.filter isPrimeB (List.pairwise_lt_range (k + 1))

theorem sievePrimes_ge_two {k p : Nat} (h : p ∈ sievePrimes k) : 2 ≤ p :=
  (sievePrimes_mem.1 h).1.two_le

theorem two_mem_sievePrimes {k : Nat} (hk : 2 ≤ k) : 2 ∈ sievePrimes k :=
  sievePrimes_mem.2 ⟨Nat.prime_two, hk⟩

theorem three_mem_sievePrimes {k : Nat} (hk : 3 ≤ k) : 3 ∈ sievePrimes k :=
  sievePrimes_mem.2 ⟨Nat.prime_three, hk⟩

theorem sievePrimes_ne_nil {k : Nat} (hk : 2 ≤ k) : sievePrimes k ≠ [] := by
  intro h
  have := two_mem_sievePrimes hk
  rw [h] at this
  simp at this

theorem sievePrimes_two_le_length {k : Nat} (hk : 3 ≤ k) : 2 ≤ (sievePrimes k).length := by
  have h2 := two_mem_sievePrimes (by omega : 2 ≤ k)
  have h3 := three_mem_sievePrimes hk
  cases hs : sievePrimes k with
  | nil => rw [hs] at h2; simp at h2
  | cons a t =>
    cases t with
    | nil =>
      rw [hs] at h2 h3
      simp at h2 h3
      omega
    | cons b t' => simp

theorem smooth_eq_withPrimes {k : Nat} (hk : 3 ≤ k) (n : Nat) :
    smooth k n = with_primes (sievePrimes k) n := by
  by_cases hn : n = 0
  · subst hn
    rw [withPrimes_zero]
    simp [smooth]
  · rw [smooth, if_neg hn, if_neg (by omega), if_neg (by omega),
      withPrimes_merge (sievePrimes_ne_nil (by omega)) (by omega)]

theorem sievePrimes_three : sievePrimes 3 = [2, 3] := by decide

/-! ### `pratt` is the two-generator merge -/

theorem prattLoop_eq_mergeLoop : ∀ (fuel : Nat) (v : List Nat) (a b : Nat),
    prattLoop fuel v a b = mergeLoop [2, 3] fuel v [a, b] := by
  intro fuel
  induction fuel with
  | zero => intro v a b; rfl
  | succ fuel ih =>
    intro v a b
    rw [prattLoop, mergeLoop, mergeStep]
    simp only [candidates]
    cases hva : vget v a with
    | error e => rfl
    | ok x =>
      simp only [bindE_ok]
      cases hm2 : mulU64 2 x with
      | error e => rfl
      | ok t2 =>
        simp only [bindE_ok]
        cases hvb : vget v b with
        | error e => rfl
        | ok y =>
          simp only [bindE_ok]
          cases hm3 : mulU64 3 y with
          | error e => rfl
          | ok t3 =>
            simp only [bindE_ok, pureE]
            show (if t2 < t3 then prattLoop fuel (v ++ [t2]) (a + 1) b
                else if t2 = t3 then prattLoop fuel (v ++ [t2]) (a + 1) (b + 1)
                else prattLoop fuel (v ++ [t3]) a (b + 1)) =
              mergeLoop [2, 3] fuel (v ++ [min t2 t3])
                [if t2 = min t2 t3 then a + 1 else a, if t3 = min t2 t3 then b + 1 else b]
            by_cases hlt : t2 < t3
            · have hmin : min t2 t3 = t2 := Nat.min_eq_left (Nat.le_of_lt hlt)
              rw [if_pos hlt, hmin, if_pos rfl, if_neg (by omega)]
              exact ih (v ++ [t2]) (a + 1) b
            · by_cases heq : t2 = t3
              · have hmin : min t2 t3 = t2 := by omega
                rw [if_neg hlt, if_pos heq, hmin, if_pos rfl, if_pos heq.symm]
                exact ih (v ++ [t2]) (a + 1) (b + 1)
              · have hmin : min t2 t3 = t3 := by omega
                rw [if_neg hlt, if_neg heq, hmin, if_neg heq, if_pos rfl]
                exact ih (v ++ [t3]) a (b + 1)

theorem pratt_eq_withPrimes (n : Nat) : pratt n = with_primes [2, 3] n := by
  by_cases hn : n = 0
  · subst hn; rfl
  · rw [pratt, if_neg hn, withPrimes_merge (by simp) (by omega), prattLoop_eq_mergeLoop]
    rfl

/-! ### Functional correctness of the merge loop -/

theorem reachable_one_le {ps : List Nat} (hps : ∀ p ∈ ps, 2 ≤ p) :
    ∀ {x : Nat}, Reachable ps x → 1 ≤ x := by
  intro x h
  induction h with
  | one => omega
  | @mul p y hp _ ih =>
    have h2 := hps p hp
    calc 1 = 1 * 1 := rfl
    _ ≤ p * y := Nat.mul_le_mul (by omega) ih

theorem sorted_mem_le_lastD {v : List Nat} (hs : List.Sorted (· < ·) v) :
    ∀ {y : Nat}, y ∈ v → y ≤ v.getLastD 0 := by
  induction v using List.reverseRecOn with
  | nil => intro y hy; simp at hy
  | append_singleton l a ih =>
    intro y hy
    rw [List.getLastD_concat]
    rcases List.mem_append.1 hy with hy | hy
    · have := (List.pairwise_append.1 hs).2.2 y hy a (by simp)
      omega
    · rw [List.mem_singleton] at hy; omega

theorem sorted_getD_strict {v : List Nat} (hs : List.Sorted (· < ·) v) {i j : Nat}
    (hij : i < j) (hj : j < v.length) : v.getD i 0 < v.getD j 0 := by
  have h2 := List.pairwise_iff_get.1 hs ⟨i, by omega⟩ ⟨j, hj⟩ (by exact hij)
  rw [List.getD_eq_getElem?_getD, List.getD_eq_getElem?_getD,
    List.getElem?_eq_getElem (show i < v.length by omega), List.getElem?_eq_getElem hj]
  simp only [Option.getD_some]
  simpa using h2

theorem sorted_getD_mono {v : List Nat} (hs : List.Sorted (· < ·) v) {i j : Nat}
    (hij : i ≤ j) (hj : j < v.length) : v.getD i 0 ≤ v.getD j 0 := by
  rcases Nat.eq_or_lt_of_le hij with rfl | hlt
  · exact Nat.le_refl _
  · exact Nat.le_of_lt (sorted_getD_strict hs hlt hj)

theorem getD_mem {v : List Nat} {i : Nat} (h : i < v.length) : v.getD i 0 ∈ v := by
  rw [List.getD_eq_getElem?_getD, List.getElem?_eq_getElem h]
  exact List.getElem_mem h

theorem mem_getD {v : List Nat} {y : Nat} (h : y ∈ v) :
    ∃ t, t < v.length ∧ v.getD t 0 = y := by
  rcases List.getElem_of_mem h with ⟨t, ht, hget⟩
  refine ⟨t, ht, ?_⟩
  rw [List.getD_eq_getElem?_getD, List.getElem?_eq_getElem ht]
  simpa using hget

theorem mem_take_of_getD {v : List Nat} {t i : Nat} (ht : t < i) (hlen : t < v.length) :
    v.getD t 0 ∈ v.take i := by
  have heq : (v.take i).getD t 0 = v.getD t 0 := by
    rw [List.getD_eq_getElem?_getD, List.getD_eq_getElem?_getD, List.getElem?_take_of_lt ht]
  rw [← heq]
  apply getD_mem
  rw [List.length_take]
  omega

theorem getD_append_left {v : List Nat} {m i : Nat} (h : i < v.length) :
    (v ++ [m]).getD i 0 = v.getD i 0 := by
  rw [List.getD_eq_getElem?_getD, List.getD_eq_getElem?_getD, List.getElem?_append_left h]

theorem getD_concat_length {v : List Nat} {m : Nat} : (v ++ [m]).getD v.length 0 = m := by
  rw [List.getD_eq_getElem?_getD, List.getElem?_concat_length]
  rfl

theorem reachable_ge_min {ps v idx : List Nat} {m : Nat}
    (hps : ∀ p ∈ ps, 2 ≤ p)
    (hhead : v.head? = some 1) (hs : List.Sorted (· < ·) v)
    (hcomp : ∀ x, Reachable ps x → x ≤ v.getLastD 0 → x ∈ v)
    (hcur : List.Forall₂ (CurInv v) ps idx)
    (hmin : ∀ c ∈ List.zipWith (fun p i => p * v.getD i 0) ps idx, m ≤ c) :
    ∀ x, Reachable ps x → v.getLastD 0 < x → m ≤ x := by
  intro x
  induction x using Nat.strong_induction_on with
  | _ x ih =>
    intro hx hgt
    cases hx with
    | one =>
      have h1 : (1 : Nat) ∈ v := by
        cases v with
        | nil => simp at hhead
        | cons a t =>
          rw [List.head?_cons, Option.some_inj] at hhead
          rw [hhead]
          simp
      have := sorted_mem_le_lastD hs h1
      omega
    | @mul p y hp hy =>
      have hp2 := hps p hp
      have hy1 := reachable_one_le hps hy
      have hyx : y < p * y := by
        have h2 : 2 * y ≤ p * y := Nat.mul_le_mul_right y (by omega)
        omega
      by_cases hyl : y ≤ v.getLastD 0
      · have hyv : y ∈ v := hcomp y hy hyl
        rcases mem_getD hyv with ⟨t, htlen, hgetd⟩
        rcases forall₂_zipWith_mem (f := fun p i => p * v.getD i 0) hcur hp
          with ⟨i, hci, hcmem⟩
        obtain ⟨hilen, hgtlast, htake⟩ := hci
        by_cases hti : t < i
        · have hymem : y ∈ v.take i := by
            rw [← hgetd]
            exact mem_take_of_getD hti htlen
          have := htake y hymem
          omega
        · have hile : v.getD i 0 ≤ v.getD t 0 := sorted_getD_mono hs (by omega) htlen
          have hmle : m ≤ p * v.getD i 0 := hmin _ hcmem
          have hmul : p * v.getD i 0 ≤ p * y := by
            rw [← hgetd]
            exact Nat.mul_le_mul_left p hile
          omega
      · have := ih y hyx hy (by omega)
        omega

theorem mergeStep_inv {ps v idx : List Nat} (hps : ∀ p ∈ ps, 2 ≤ p) (hne : ps ≠ [])
    (hinv : StInv ps v idx) :
    mergeStep ps v idx = .error .overflow ∨
    ∃ m idx', mergeStep ps v idx = .ok (v ++ [m], idx') ∧ StInv ps (v ++ [m]) idx' := by
  obtain ⟨hvne, hhead, hs, hbound, hreach, hcomp, hcur⟩ := hinv
  have hb : List.Forall₂ (fun _ i => i < v.length) ps idx :=
    forall₂_imp hcur (fun p i h => h.1)
  rcases candidates_spec hb with herr | ⟨hok, hball⟩
  · left; rw [mergeStep, herr, bindE_error]
  · right
    have hlen := List.Forall₂.length_eq hb
    have hcs_ne : List.zipWith (fun p i => p * v.getD i 0) ps idx ≠ [] := by
      cases ps with
      | nil => exact absurd rfl hne
      | cons p ps' =>
        cases idx with
        | nil => simp at hlen
        | cons i is => simp [List.zipWith_cons_cons]
    rcases listMin_exists hcs_ne with ⟨m, hm⟩
    have hminle := listMin_le hm
    have hmmem := listMin_mem hm
    rcases forall₂_mem_zipWith hcur _ hmmem with ⟨p₀, i₀, hp₀, hci₀, hmeq⟩
    have hlastm : v.getLastD 0 < m := by rw [hmeq]; exact hci₀.2.1
    have hmreach : Reachable ps m := by
      rw [hmeq]
      exact Reachable.mul hp₀ (hreach _ (getD_mem hci₀.1))
    have hlast' : (v ++ [m]).getLastD 0 = m := List.getLastD_concat _ _ _
    refine ⟨m, _, by rw [mergeStep, hok, bindE_ok, hm]; rfl, ?_⟩
    refine ⟨by simp, ?_, ?_, ?_, ?_, ?_, ?_⟩
    · cases v with
      | nil => exact absurd rfl hvne
      | cons a t => simpa using hhead
    · refine List.pairwise_append.2 ⟨hs, by simp, ?_⟩
      intro a ha b hb'
      rw [List.mem_singleton] at hb'
      have := sorted_mem_le_lastD hs ha
      omega
    · intro x hx
      rcases List.mem_append.1 hx with hx | hx
      · exact hbound x hx
      · rw [List.mem_singleton] at hx
        rw [hx]
        exact hball m hmmem
    · intro x hx
      rcases List.mem_append.1 hx with hx | hx
      · exact hreach x hx
      · rw [List.mem_singleton] at hx
        rw [hx]
        exact hmreach
    · intro x hx hxle
      rw [hlast'] at hxle
      by_cases hxl : x ≤ v.getLastD 0
      · exact List.mem_append_left _ (hcomp x hx hxl)
      · have hge := reachable_ge_min hps hhead hs hcomp hcur hminle x hx (by omega)
        have hxm : x = m := by omega
        rw [hxm]
        exact List.mem_append_right _ (by simp)
    · refine advance_forall₂ hcur ?_
      intro p i hpmem hcmem2 hci
      obtain ⟨hilen, hgtl, htake⟩ := hci
      have hp2 := hps p hpmem
      by_cases hceq : p * v.getD i 0 = m
      · rw [if_pos hceq]
        refine ⟨by simp only [List.length_append, List.length_singleton]; omega, ?_, ?_⟩
        · rw [hlast']
          by_cases hi1 : i + 1 < v.length
          · rw [getD_append_left hi1]
            have hmono : v.getD i 0 < v.getD (i + 1) 0 := sorted_getD_strict hs (by omega) hi1
            have h1 : p * (v.getD i 0 + 1) ≤ p * v.getD (i + 1) 0 :=
              Nat.mul_le_mul_left p (by omega)
            rw [Nat.mul_add, Nat.mul_one] at h1
            omega
          · have hieq : i + 1 = v.length := by omega
            rw [hieq, getD_concat_length]
            have hm1 : 1 ≤ m := by omega
            have : 2 * m ≤ p * m := Nat.mul_le_mul_right m (by omega)
            omega
        · intro y hy
          rw [hlast']
          have htk : (v ++ [m]).take (i + 1) = v.take (i + 1) :=
            List.take_append_of_le_length (by omega)
          rw [htk, List.take_succ] at hy
          rcases List.mem_append.1 hy with hy | hy
          · have := htake y hy
            omega
          · rw [List.getElem?_eq_getElem hilen] at hy
            simp only [Option.toList_some, List.mem_singleton] at hy
            rw [hy]
            have hgd : v[i] = v.getD i 0 := by
              rw [List.getD_eq_getElem?_getD, List.getElem?_eq_getElem hilen]
              rfl
            rw [hgd, hceq]
      · rw [if_neg hceq]
        refine ⟨by simp only [List.length_append, List.length_singleton]; omega, ?_, ?_⟩
        · rw [hlast', getD_append_left hilen]
          have := hminle _ hcmem2
          omega
        · intro y hy
          rw [hlast']
          have htk : (v ++ [m]).take i = v.take i :=
            List.take_append_of_le_length (by omega)
          rw [htk] at hy
          have := htake y hy
          omega

theorem mergeLoop_inv : ∀ (fuel : Nat) {ps v idx : List Nat}, (∀ p ∈ ps, 2 ≤ p) →
    ps ≠ [] → StInv ps v idx →
    mergeLoop ps fuel v idx = .error .overflow ∨
    ∃ l idx', mergeLoop ps fuel v idx = .ok l ∧ StInv ps l idx' ∧
      l.length = v.length + fuel := by
  intro fuel
  induction fuel with
  | zero =>
    intro ps v idx _ _ hinv
    right; exact ⟨v, idx, rfl, hinv, by omega⟩
  | succ fuel ih =>
    intro ps v idx hps hne hinv
    rcases mergeStep_inv hps hne hinv with herr | ⟨m, idx', hstep, hinv'⟩
    · left; rw [mergeLoop, herr]
    · rw [mergeLoop, hstep]
      rcases ih hps hne hinv' with herr2 | ⟨l, idx'', hok, hinv'', hlen⟩
      · left; exact herr2
      · right
        refine ⟨l, idx'', hok, hinv'', ?_⟩
        simp only [List.length_append, List.length_singleton] at hlen
        omega

theorem stInv_init {ps : List Nat} (hps : ∀ p ∈ ps, 2 ≤ p) :
    StInv ps [1] (List.replicate ps.length 0) := by
  refine ⟨by simp, rfl, by simp, ?_, ?_, ?_, ?_⟩
  · intro x hx
    rw [List.mem_singleton] at hx
    rw [hx]
    decide
  · intro x hx
    rw [List.mem_singleton] at hx
    rw [hx]
    exact Reachable.one
  · intro x hx hxle
    have h1 := reachable_one_le hps hx
    have hl1 : ([1] : List Nat).getLastD 0 = 1 := rfl
    rw [hl1] at hxle
    have hx1 : x = 1 := by omega
    rw [hx1]
    simp
  · refine forall₂_replicate ?_
    intro p hp
    have := hps p hp
    refine ⟨by simp, ?_, by simp⟩
    show ([1] : List Nat).getLastD 0 < p * ([1] : List Nat).getD 0 0
    have e1 : ([1] : List Nat).getLastD 0 = 1 := rfl
    have e2 : ([1] : List Nat).getD 0 0 = 1 := rfl
    rw [e1, e2, Nat.mul_one]
    omega

theorem withPrimes_spec {ps : List Nat} {n : Nat} {l : List Nat}
    (hps : ∀ p ∈ ps, 2 ≤ p) (hne : ps ≠ []) (h : with_primes ps n = .ok l) :
    l.length = n ∧ List.Sorted (· < ·) l ∧ (1 ≤ n → l.head? = some 1) ∧
    (∀ x ∈ l, Reachable ps x ∧ x ≤ U64MAX) ∧
    (∀ x y, Reachable ps x → y ∈ l → x ≤ y → x ∈ l) := by
  by_cases hn : n = 0
  · subst hn
    rw [withPrimes_zero] at h
    obtain rfl : ([] : List Nat) = l := Except.ok.inj h
    refine ⟨rfl, by simp, by omega, by simp, by simp⟩
  · rw [withPrimes_merge hne (by omega)] at h
    rcases mergeLoop_inv (n - 1) hps hne (stInv_init hps) with herr | ⟨l', idx', hok, hinv, hlen⟩
    · rw [herr] at h; cases h
    · rw [hok] at h
      obtain rfl : l' = l := Except.ok.inj h
      obtain ⟨hvne, hhead, hs, hbound, hreach, hcomp, hcur⟩ := hinv
      refine ⟨?_, hs, fun _ => hhead, ?_, ?_⟩
      · simp only [List.length_singleton] at hlen
        omega
      · intro x hx
        exact ⟨hreach x hx, hbound x hx⟩
      · intro x y hx hy hxy
        apply hcomp x hx
        have := sorted_mem_le_lastD hs hy
        omega

/-! ### Uniqueness of the output characterised by the spec -/

theorem sorted_length_le : ∀ (v : List Nat), List.Sorted (· < ·) v → ∀ (lo B : Nat),
    (∀ x ∈ v, lo ≤ x ∧ x ≤ B) → v.length ≤ B + 1 - lo := by
  intro v
  induction v with
  | nil => intro _ lo B _; simp
  | cons a t ih =>
    intro hs lo B hb
    have ha := hb a (by simp)
    have hts : List.Sorted (· < ·) t := hs.of_cons
    have hbt : ∀ x ∈ t, a + 1 ≤ x ∧ x ≤ B := by
      intro x hx
      have hax : a < x := List.rel_of_sorted_cons hs x hx
      have := hb x (by simp [hx])
      omega
    have := ih hts (a + 1) B hbt
    simp only [List.length_cons]
    omega

theorem sorted_complete_unique : ∀ (l₁ : List Nat) (R : Nat → Prop) (l₂ : List Nat),
    List.Sorted (· < ·) l₁ → List.Sorted (· < ·) l₂ →
    (∀ x ∈ l₁, R x) → (∀ x ∈ l₂, R x) →
    (∀ x y, R x → y ∈ l₁ → x ≤ y → x ∈ l₁) →
    (∀ x y, R x → y ∈ l₂ → x ≤ y → x ∈ l₂) →
    l₁.length = l₂.length → l₁ = l₂ := by
  intro l₁
  induction l₁ with
  | nil =>
    intro R l₂ _ _ _ _ _ _ hlen
    cases l₂ with
    | nil => rfl
    | cons b t₂ => simp at hlen
  | cons a t₁ ih =>
    intro R l₂ hs₁ hs₂ hR₁ hR₂ hc₁ hc₂ hlen
    cases l₂ with
    | nil => simp at hlen
    | cons b t₂ =>
      have hab : a = b := by
        rcases Nat.le_total a b with hle | hle
        · have ha2 : a ∈ b :: t₂ := hc₂ a b (hR₁ a (by simp)) (by simp) hle
          rcases List.mem_cons.1 ha2 with h | h
          · exact h
          · have := List.rel_of_sorted_cons hs₂ a h
            omega
        · have hb1 : b ∈ a :: t₁ := hc₁ b a (hR₂ b (by simp)) (by simp) hle
          rcases List.mem_cons.1 hb1 with h | h
          · exact h.symm
          · have := List.rel_of_sorted_cons hs₁ b h
            omega
      subst hab
      have ht : t₁ = t₂ := by
        apply ih (fun x => R x ∧ a < x) t₂ hs₁.of_cons hs₂.of_cons
        · intro x hx
          exact ⟨hR₁ x (List.mem_cons_of_mem a hx), List.rel_of_sorted_cons hs₁ x hx⟩
        · intro x hx
          exact ⟨hR₂ x (List.mem_cons_of_mem a hx), List.rel_of_sorted_cons hs₂ x hx⟩
        · intro x y hx hy hxy
          rcases List.mem_cons.1 (hc₁ x y hx.1 (List.mem_cons_of_mem a hy) hxy) with h | h
          · exact absurd h.symm (by omega)
          · exact h
        · intro x y hx hy hxy
          rcases List.mem_cons.1 (hc₂ x y hx.1 (List.mem_cons_of_mem a hy) hxy) with h | h
          · exact absurd h.symm (by omega)
          · exact h
        · simpa using hlen
      rw [ht]

theorem reachable_mono {ps₁ ps₂ : List Nat} (hsub : ∀ x, x ∈ ps₁ → x ∈ ps₂) {x : Nat}
    (h : Reachable ps₁ x) : Reachable ps₂ x := by
  induction h with
  | one => exact Reachable.one
  | mul hp _ ih => exact Reachable.mul (hsub _ hp) ih

/-! ### Failure monotonicity and the overflow boundary -/

theorem withPrimes_error_succ {ps : List Nat} {n : Nat} {e : Err}
    (h : with_primes ps n = .error e) : with_primes ps (n + 1) = .error e := by
  by_cases hn : n = 0
  · subst hn; rw [withPrimes_zero] at h; cases h
  · by_cases hps : ps = []
    · subst hps; rw [withPrimes_nil (by omega)] at h; cases h
    · rw [withPrimes_merge hps (by omega)] at h
      rw [withPrimes_merge hps (by omega), show n + 1 - 1 = (n - 1) + 1 by omega]
      exact mergeLoop_error_succ h

theorem withPrimes_error_mono {ps : List Nat} {n m : Nat} {e : Err}
    (h : with_primes ps n = .error e) (hnm : n ≤ m) : with_primes ps m = .error e := by
  obtain ⟨d, rfl⟩ : ∃ d, m = n + d := ⟨m - n, by omega⟩
  clear hnm
  induction d with
  | zero => exact h
  | succ d ih => exact withPrimes_error_succ ih

theorem withPrimes_ok_below {ps : List Nat} {n m : Nat} (hnm : m ≤ n)
    (h : resultOk (with_primes ps n) = true) : resultOk (with_primes ps m) = true := by
  cases he : with_primes ps m with
  | ok l => rfl
  | error e =>
    have := withPrimes_error_mono he hnm
    rw [this] at h
    simp [resultOk] at h

theorem init_bounds {ps : List Nat} :
    List.Forall₂ (fun _ i => i < ([1] : List Nat).length) ps (List.replicate ps.length 0) :=
  forall₂_replicate (fun _ _ => by simp)

theorem init_val : ∀ x ∈ ([1] : List Nat), x ≤ U64MAX := by
  intro x hx
  rw [List.mem_singleton] at hx
  rw [hx]
  decide

theorem withPrimes_ok_or_overflow {ps : List Nat} (hne : ps ≠ []) (n : Nat) :
    (∃ l, with_primes ps n = .ok l ∧ l.length = n ∧ ∀ x ∈ l, x ≤ U64MAX) ∨
    with_primes ps n = .error .overflow := by
  by_cases hn : n = 0
  · left
    refine ⟨[], ?_, by simp [hn], by simp⟩
    rw [hn, withPrimes_zero]
  · rw [withPrimes_merge hne (by omega)]
    rcases mergeLoop_basic (n - 1) hne init_bounds init_val with herr | ⟨l, hok, hlen, hb⟩
    · right; exact herr
    · left
      refine ⟨l, hok, ?_, hb⟩
      simp only [List.length_singleton] at hlen
      omega

theorem withPrimes_panic (ps : List Nat) (n : Nat) :
    panicKind (with_primes ps n) = none ∨ panicKind (with_primes ps n) = some .overflow := by
  by_cases hps : ps = []
  · subst hps
    by_cases hn : n = 0
    · subst hn; rw [withPrimes_zero]; left; rfl
    · rw [withPrimes_nil (by omega)]; left; rfl
  · rcases withPrimes_ok_or_overflow hps n with ⟨l, hok, _, _⟩ | herr
    · left; rw [hok]; rfl
    · right; rw [herr]; rfl

theorem smooth_panic (k n : Nat) :
    panicKind (smooth k n) = none ∨ panicKind (smooth k n) = some .overflow := by
  by_cases h2 : k < 2
  · by_cases hn : n = 0
    · rw [smooth, if_pos hn]; left; rfl
    · rw [smooth, if_neg hn, if_pos h2]; left; rfl
  · by_cases hk2 : k = 2
    · subst hk2
      rw [smooth_two_eq]
      exact withPrimes_panic [2] n
    · rw [smooth_eq_withPrimes (by omega)]
      exact withPrimes_panic _ n

theorem withPrimes_fail_big {ps : List Nat} (hps : ∀ p ∈ ps, 2 ≤ p) (hne : ps ≠ []) :
    resultOk (with_primes ps (U64MAX + 2)) = false := by
  cases he : with_primes ps (U64MAX + 2) with
  | error e => rfl
  | ok l =>
    exfalso
    obtain ⟨hlen, hs, _, hmem, _⟩ := withPrimes_spec hps hne he
    have hb : ∀ x ∈ l, 0 ≤ x ∧ x ≤ U64MAX := fun x hx => ⟨by omega, (hmem x hx).2⟩
    have := sorted_length_le l hs 0 U64MAX hb
    omega

theorem withPrimes_max_n {ps : List Nat} (hps : ∀ p ∈ ps, 2 ≤ p) (hne : ps ≠ []) :
    ∃ N, ∀ n, resultOk (with_primes ps n) = true ↔ n ≤ N := by
  have hex : ∃ n, resultOk (with_primes ps n) = false := ⟨_, withPrimes_fail_big hps hne⟩
  have hF : resultOk (with_primes ps (Nat.find hex)) = false := Nat.find_spec hex
  have hF0 : Nat.find hex ≠ 0 := by
    intro h0
    rw [h0, withPrimes_zero] at hF
    simp [resultOk] at hF
  refine ⟨Nat.find hex - 1, fun n => ⟨?_, ?_⟩⟩
  · intro hok
    by_contra hgt
    cases he : with_primes ps (Nat.find hex) with
    | ok l => rw [he] at hF; simp [resultOk] at hF
    | error e =>
      have := withPrimes_error_mono he (by omega : Nat.find hex ≤ n)
      rw [this] at hok
      simp [resultOk] at hok
  · intro hle
    have hmin := Nat.find_min hex (show n < Nat.find hex by omega)
    cases he : with_primes ps n with
    | ok l => rfl
    | error e =>
      rw [he] at hmin
      exact absurd rfl hmin

/-! ### Length lemmas for the entry points -/

theorem withPrimes_len {ps : List Nat} {n : Nat} {l : List Nat} (hne : ps ≠ [])
    (h : with_primes ps n = .ok l) : l.length = n := by
  rcases withPrimes_ok_or_overflow hne n with ⟨l', hok, hlen, _⟩ | herr
  · rw [hok] at h
    rw [← Except.ok.inj h]
    exact hlen
  · rw [herr] at h
    cases h

theorem smooth_len {k n : Nat} {l : List Nat} (hk : 2 ≤ k) (h : smooth k n = .ok l) :
    l.length = n := by
  by_cases hk2 : k = 2
  · subst hk2
    rw [smooth_two_eq] at h
    exact withPrimes_len (by simp) h
  · rw [smooth_eq_withPrimes (by omega)] at h
    exact withPrimes_len (sievePrimes_ne_nil (by omega)) h

/-! ### Output depends only on the generator set -/

theorem withPrimes_set_invariance {ps₁ ps₂ : List Nat} {n : Nat} {l₁ l₂ : List Nat}
    (hps : ∀ p ∈ ps₁, 2 ≤ p) (hmem : ∀ x, x ∈ ps₁ ↔ x ∈ ps₂)
    (h₁ : with_primes ps₁ n = .ok l₁) (h₂ : with_primes ps₂ n = .ok l₂) : l₁ = l₂ := by
  by_cases h1 : ps₁ = []
  · subst h1
    have h2 : ps₂ = [] := by
      cases ps₂ with
      | nil => rfl
      | cons q t => exact absurd ((hmem q).2 (by simp)) (by simp)
    subst h2
    rw [h₁] at h₂
    exact Except.ok.inj h₂
  · have h2ne : ps₂ ≠ [] := by
      cases hp1 : ps₁ with
      | nil => exact absurd hp1 h1
      | cons p t =>
        intro hc
        have := (hmem p).1 (by rw [hp1]; simp)
        rw [hc] at this
        simp at this
    have hps₂ : ∀ p ∈ ps₂, 2 ≤ p := fun p hp => hps p ((hmem p).2 hp)
    obtain ⟨hlen₁, hs₁, _, hmem₁, hcomp₁⟩ := withPrimes_spec hps h1 h₁
    obtain ⟨hlen₂, hs₂, _, hmem₂, hcomp₂⟩ := withPrimes_spec hps₂ h2ne h₂
    apply sorted_complete_unique l₁ (Reachable ps₁) l₂ hs₁ hs₂
    · exact fun x hx => (hmem₁ x hx).1
    · exact fun x hx => reachable_mono (fun q hq => (hmem q).2 hq) (hmem₂ x hx).1
    · exact hcomp₁
    · intro x y hx hy hxy
      exact hcomp₂ x y (reachable_mono (fun q hq => (hmem q).1 hq) hx) hy hxy
    · omega

/-! ### Shared sortedness helpers for the entry points -/

theorem withPrimes_sorted_head {ps : List Nat} {n : Nat} {l : List Nat} (hn : 1 ≤ n)
    (hg : ∀ p ∈ ps, 2 ≤ p) (h : with_primes ps n = .ok l) :
    List.Sorted (· < ·) l ∧ l.Nodup ∧ l.head? = some 1 := by
  by_cases hps : ps = []
  · subst hps
    rw [withPrimes_nil hn] at h
    obtain rfl : [1] = l := Except.ok.inj h
    exact ⟨by simp, by simp, rfl⟩
  · obtain ⟨_, hs, hh, _, _⟩ := withPrimes_spec hg hps h
    exact ⟨hs, List.Pairwise.imp (fun hlt => Nat.ne_of_lt hlt) hs, hh hn⟩

theorem smooth_sorted_head {k n : Nat} {l : List Nat} (hn : 1 ≤ n) (h : smooth k n = .ok l) :
    List.Sorted (· < ·) l ∧ l.Nodup ∧ l.head? = some 1 := by
  by_cases h2 : k < 2
  · rw [smooth, if_neg (by omega), if_pos h2] at h
    obtain rfl : [1] = l := Except.ok.inj h
    exact ⟨by simp, by simp, rfl⟩
  · by_cases hk2 : k = 2
    · subst hk2
      rw [smooth_two_eq] at h
      refine withPrimes_sorted_head hn ?_ h
      intro p hp
      rw [List.mem_singleton] at hp
      omega
    · rw [smooth_eq_withPrimes (by omega)] at h
      exact withPrimes_sorted_head hn (fun p hp => sievePrimes_ge_two hp) h

/-! ## The claims -/

/-- Claim C1: for every list of at least two generator values, each at least
2, and every count `n` for which no `u64` multiplication overflows (i.e. the
call returns normally), `with_primes(primes, n)` returns the ascending
sequence of the first `n` distinct values expressible as products of
non-negative integer powers of the generators, starting from 1: the output
has length `n`, is strictly sorted, starts at 1, contains only reachable
products, and contains every reachable product up to any of its members.
(That each step appends the minimum candidate and advances every tied
cursor is the definition of `mergeStep`.) -/
theorem claim_C1 (ps : List Nat) (n : Nat) (l : List Nat)
    (hm : 2 ≤ ps.length) (hg : ∀ p ∈ ps, 2 ≤ p) (h : with_primes ps n = .ok l) :
    l.length = n ∧ List.Sorted (· < ·) l ∧ (1 ≤ n → l.head? = some 1) ∧
    (∀ x ∈ l, Reachable ps x) ∧
    (∀ x y, Reachable ps x → y ∈ l → x ≤ y → x ∈ l) := by
  have hne : ps ≠ [] := by
    intro hc
    rw [hc] at hm
    simp at hm
  obtain ⟨h1, h2, h3, h4, h5⟩ := withPrimes_spec hg hne h
  exact ⟨h1, h2, h3, fun x hx => (h4 x hx).1, h5⟩

/-- Witness for C1 at `primes = [2, 5]`, `n = 10`. -/
theorem claim_C1_witness :
    (2 ≤ ([2, 5] : List Nat).length) ∧ (∀ p ∈ ([2, 5] : List Nat), 2 ≤ p) ∧
    with_primes [2, 5] 10 = .ok [1, 2, 4, 5, 8, 10, 16, 20, 25, 32] ∧
    (([1, 2, 4, 5, 8, 10, 16, 20, 25, 32] : List Nat).length = 10 ∧
      List.Sorted (· < ·) ([1, 2, 4, 5, 8, 10, 16, 20, 25, 32] : List Nat) ∧
      (1 ≤ 10 → ([1, 2, 4, 5, 8, 10, 16, 20, 25, 32] : List Nat).head? = some 1) ∧
      (∀ x ∈ ([1, 2, 4, 5, 8, 10, 16, 20, 25, 32] : List Nat), Reachable [2, 5] x) ∧
      (∀ x y, Reachable [2, 5] x → y ∈ ([1, 2, 4, 5, 8, 10, 16, 20, 25, 32] : List Nat) →
        x ≤ y → x ∈ ([1, 2, 4, 5, 8, 10, 16, 20, 25, 32] : List Nat))) :=
  ⟨by decide, by decide, by decide,
    claim_C1 [2, 5] 10 [1, 2, 4, 5, 8, 10, 16, 20, 25, 32] (by decide) (by decide) (by decide)⟩

/-- Claim C2: the three entry points agree on the 3-smooth sequence:
`pratt(n) = smooth(3, n)` and `pratt(n) = with_primes([2, 3], n)`, here for
every `n` (they agree even on the panic that ends the overflow-free range). -/
theorem claim_C2 (n : Nat) : pratt n = smooth 3 n ∧ pratt n = with_primes [2, 3] n := by
  refine ⟨?_, pratt_eq_withPrimes n⟩
  rw [smooth_eq_withPrimes (by omega) n, sievePrimes_three]
  exact pratt_eq_withPrimes n

/-- Claim C3: the multiplication is checked, so whenever a candidate product
would exceed `u64::MAX` the call aborts with the arithmetic-overflow panic;
a result is never silently wrapped, saturated, or truncated: every call of
`pratt`, and of `with_primes` with a nonempty generator list, either returns
a full-length sequence of values that all fit in a `u64`, or aborts with
overflow. -/
theorem claim_C3 (n : Nat) (ps : List Nat) (hne : ps ≠ []) :
    ((∃ l, pratt n = .ok l ∧ l.length = n ∧ ∀ x ∈ l, x ≤ U64MAX) ∨
      pratt n = .error .overflow) ∧
    ((∃ l, with_primes ps n = .ok l ∧ l.length = n ∧ ∀ x ∈ l, x ≤ U64MAX) ∨
      with_primes ps n = .error .overflow) := by
  constructor
  · rw [pratt_eq_withPrimes]
    exact withPrimes_ok_or_overflow (by simp) n
  · exact withPrimes_ok_or_overflow hne n

/-- Witness for C3 at `n = 5`, `primes = [2, 3]`. -/
theorem claim_C3_witness :
    (([2, 3] : List Nat) ≠ []) ∧
    (((∃ l, pratt 5 = .ok l ∧ l.length = 5 ∧ ∀ x ∈ l, x ≤ U64MAX) ∨
        pratt 5 = .error .overflow) ∧
      ((∃ l, with_primes [2, 3] 5 = .ok l ∧ l.length = 5 ∧ ∀ x ∈ l, x ≤ U64MAX) ∨
        with_primes [2, 3] 5 = .error .overflow)) :=
  ⟨by decide, claim_C3 5 [2, 3] (by decide)⟩

/-- Counterexample to C4 as stated: `with_primes(&[1], 2)` is an
overflow-free call with `n ≥ 1`, but it returns `[1, 1]`, which is not
strictly increasing. -/
theorem claim_C4_counterexample :
    with_primes [1] 2 = .ok [1, 1] ∧ ¬ List.Sorted (· < ·) ([1, 1] : List Nat) := by
  refine ⟨by decide, ?_⟩
  intro h
  have := List.rel_of_sorted_cons h 1 (by simp)
  omega

/-- Claim C4 (amended): for every overflow-free call of `pratt(n)` or
`smooth(k, n)` with `n ≥ 1`, and of `with_primes(primes, n)` with `n ≥ 1`
whose generator values are all at least 2, the returned sequence is strictly
increasing (hence duplicate-free) and its first element is 1.  (The
amendment restricts the `with_primes` part to generator values ≥ 2: the
code returns `[1, 1]` on `with_primes(&[1], 2)`.) -/
theorem claim_C4_amended (n k : Nat) (ps : List Nat) (l₁ l₂ l₃ : List Nat) (hn : 1 ≤ n)
    (hg : ∀ p ∈ ps, 2 ≤ p) :
    (pratt n = .ok l₁ → List.Sorted (· < ·) l₁ ∧ l₁.Nodup ∧ l₁.head? = some 1) ∧
    (smooth k n = .ok l₂ → List.Sorted (· < ·) l₂ ∧ l₂.Nodup ∧ l₂.head? = some 1) ∧
    (with_primes ps n = .ok l₃ → List.Sorted (· < ·) l₃ ∧ l₃.Nodup ∧ l₃.head? = some 1) := by
  refine ⟨?_, fun h => smooth_sorted_head hn h, fun h => withPrimes_sorted_head hn hg h⟩
  intro h
  rw [pratt_eq_withPrimes] at h
  refine withPrimes_sorted_head hn ?_ h
  intro p hp
  simp only [List.mem_cons, List.not_mem_nil, or_false] at hp
  rcases hp with rfl | rfl <;> omega

/-- Witness for the amended C4 at `n = 4`, `k = 5`, `primes = [2, 5]`. -/
theorem claim_C4_witness :
    ((1 : Nat) ≤ 4) ∧ (∀ p ∈ ([2, 5] : List Nat), 2 ≤ p) ∧
    pratt 4 = .ok [1, 2, 3, 4] ∧ smooth 5 4 = .ok [1, 2, 3, 4] ∧
    with_primes [2, 5] 4 = .ok [1, 2, 4, 5] ∧
    (List.Sorted (· < ·) ([1, 2, 3, 4] : List Nat) ∧ ([1, 2, 3, 4] : List Nat).Nodup ∧
      ([1, 2, 3, 4] : List Nat).head? = some 1) ∧
    (List.Sorted (· < ·) ([1, 2, 4, 5] : List Nat) ∧ ([1, 2, 4, 5] : List Nat).Nodup ∧
      ([1, 2, 4, 5] : List Nat).head? = some 1) :=
  ⟨by decide, by decide, by decide, by decide, by decide,
    (claim_C4_amended 4 5 [2, 5] [1, 2, 3, 4] [1, 2, 3, 4] [1, 2, 4, 5]
      (by decide) (by decide)).1 (by decide),
    (claim_C4_amended 4 5 [2, 5] [1, 2, 3, 4] [1, 2, 3, 4] [1, 2, 4, 5]
      (by decide) (by decide)).2.2 (by decide)⟩

/-- Counterexample to C5 as stated: `smooth(0, 10)` is an overflow-free call
but returns `[1]`, whose length is 1, not 10. -/
theorem claim_C5_counterexample :
    smooth 0 10 = .ok [1] ∧ ([1] : List Nat).length = 1 ∧ (1 : Nat) < 10 := by
  exact ⟨by decide, rfl, by decide⟩

/-- Claim C5 (amended): whenever `pratt(n)` returns, its length is `n`; and
for every overflow-free `(k, n)` with `k ≥ 2` and `(primes, n)` with a
nonempty `primes`, `len(smooth(k, n)) = n` and
`len(with_primes(primes, n)) = n`.  (The amendment excludes `k < 2` and
empty `primes`, where the code returns the single-element `[1]` for every
`n ≥ 1`.) -/
theorem claim_C5_amended (n k : Nat) (ps : List Nat) (l₁ l₂ l₃ : List Nat) :
    (pratt n = .ok l₁ → l₁.length = n) ∧
    (2 ≤ k → smooth k n = .ok l₂ → l₂.length = n) ∧
    (ps ≠ [] → with_primes ps n = .ok l₃ → l₃.length = n) := by
  refine ⟨?_, fun hk h => smooth_len hk h, fun hne h => withPrimes_len hne h⟩
  intro h
  rw [pratt_eq_withPrimes] at h
  exact withPrimes_len (by simp) h

/-- Witness for the amended C5 at `n = 10`, `k = 5`, `primes = [2, 5]`. -/
theorem claim_C5_witness :
    ((2 : Nat) ≤ 5) ∧ (([2, 5] : List Nat) ≠ []) ∧
    pratt 10 = .ok [1, 2, 3, 4, 6, 8, 9, 12, 16, 18] ∧
    smooth 5 10 = .ok [1, 2, 3, 4, 5, 6, 8, 9, 10, 12] ∧
    with_primes [2, 5] 10 = .ok [1, 2, 4, 5, 8, 10, 16, 20, 25, 32] ∧
    ([1, 2, 3, 4, 6, 8, 9, 12, 16, 18] : List Nat).length = 10 ∧
    ([1, 2, 3, 4, 5, 6, 8, 9, 10, 12] : List Nat).length = 10 ∧
    ([1, 2, 4, 5, 8, 10, 16, 20, 25, 32] : List Nat).length = 10 :=
  ⟨by decide, by decide, by decide, by decide, by decide,
    (claim_C5_amended 10 5 [2, 5] [1, 2, 3, 4, 6, 8, 9, 12, 16, 18]
      [1, 2, 3, 4, 5, 6, 8, 9, 10, 12] [1, 2, 4, 5, 8, 10, 16, 20, 25, 32]).1 (by decide),
    (claim_C5_amended 10 5 [2, 5] [1, 2, 3, 4, 6, 8, 9, 12, 16, 18]
      [1, 2, 3, 4, 5, 6, 8, 9, 10, 12] [1, 2, 4, 5, 8, 10, 16, 20, 25, 32]).2.1
      (by decide) (by decide),
    (claim_C5_amended 10 5 [2, 5] [1, 2, 3, 4, 6, 8, 9, 12, 16, 18]
      [1, 2, 3, 4, 5, 6, 8, 9, 10, 12] [1, 2, 4, 5, 8, 10, 16, 20, 25, 32]).2.2
      (by decide) (by decide)⟩

/-- Claim C6: for `n = 0` every entry point returns the empty sequence,
regardless of `k` or of the generator list (this check comes first in each
function); and for every `n ≥ 1`, `smooth(k, n)` with `k < 2` and
`with_primes(&[], n)` return exactly `[1]`. -/
theorem claim_C6 (k : Nat) (ps : List Nat) (n : Nat) (hn : 1 ≤ n) :
    smooth k 0 = .ok [] ∧ with_primes ps 0 = .ok [] ∧ pratt 0 = .ok [] ∧
    (k < 2 → smooth k n = .ok [1]) ∧ with_primes [] n = .ok [1] := by
  refine ⟨by simp [smooth], withPrimes_zero ps, rfl, ?_, withPrimes_nil hn⟩
  intro h2
  rw [smooth, if_neg (by omega), if_pos h2]

/-- Witness for C6 at `k = 0`, `primes = [7]`, `n = 3`. -/
theorem claim_C6_witness :
    ((1 : Nat) ≤ 3) ∧ (smooth 0 0 = .ok [] ∧ with_primes [7] 0 = .ok [] ∧ pratt 0 = .ok [] ∧
      ((0 : Nat) < 2 → smooth 0 3 = .ok [1]) ∧ with_primes [] 3 = .ok [1]) :=
  ⟨by decide, claim_C6 0 [7] 3 (by decide)⟩

/-- Claim C8: for every `k ≥ 3` (and every `n`), `smooth(k, n)` equals
`with_primes(ps, n)` where `ps` is the ascending list of exactly the primes
in `[2, k]` — the sieve model yields exactly those primes, in ascending
order. -/
theorem claim_C8 (k n : Nat) (hk : 3 ≤ k) :
    smooth k n = with_primes (sievePrimes k) n ∧
    List.Sorted (· < ·) (sievePrimes k) ∧
    (∀ p, p ∈ sievePrimes k ↔ Nat.Prime p ∧ 2 ≤ p ∧ p ≤ k) := by
  refine ⟨smooth_eq_withPrimes hk n, sievePrimes_sorted k, ?_⟩
  intro p
  rw [sievePrimes_mem]
  constructor
  · intro ⟨h1, h2⟩
    exact ⟨h1, h1.two_le, h2⟩
  · intro ⟨h1, _, h3⟩
    exact ⟨h1, h3⟩

/-- Witness for C8 at `k = 5`, `n = 4`. -/
theorem claim_C8_witness :
    ((3 : Nat) ≤ 5) ∧ (smooth 5 4 = with_primes (sievePrimes 5) 4 ∧
      List.Sorted (· < ·) (sievePrimes 5) ∧
      (∀ p, p ∈ sievePrimes 5 ↔ Nat.Prime p ∧ 2 ≤ p ∧ p ≤ 5)) :=
  ⟨by decide, claim_C8 5 4 (by decide)⟩

/-- Claim C9: the output of `with_primes` depends only on the set of
distinct generator values: for generator lists with the same members (all at
least 2) and any `n` at which both calls return, the returned sequences are
equal — this covers permutations (`[3, 2]` vs `[2, 3]`) and repetitions
(`[2, 2]` vs `[2]`). -/
theorem claim_C9 (ps₁ ps₂ : List Nat) (n : Nat) (l₁ l₂ : List Nat)
    (hg : ∀ p ∈ ps₁, 2 ≤ p) (hmem : ∀ x, x ∈ ps₁ ↔ x ∈ ps₂)
    (h₁ : with_primes ps₁ n = .ok l₁) (h₂ : with_primes ps₂ n = .ok l₂) : l₁ = l₂ :=
  withPrimes_set_invariance hg hmem h₁ h₂

/-- Witness for C9 at `ps₁ = [3, 2]`, `ps₂ = [2, 3]`, `n = 10`. -/
theorem claim_C9_witness :
    (∀ p ∈ ([3, 2] : List Nat), 2 ≤ p) ∧
    (∀ x, x ∈ ([3, 2] : List Nat) ↔ x ∈ ([2, 3] : List Nat)) ∧
    with_primes [3, 2] 10 = .ok [1, 2, 3, 4, 6, 8, 9, 12, 16, 18] ∧
    with_primes [2, 3] 10 = .ok [1, 2, 3, 4, 6, 8, 9, 12, 16, 18] ∧
    ([1, 2, 3, 4, 6, 8, 9, 12, 16, 18] : List Nat) = [1, 2, 3, 4, 6, 8, 9, 12, 16, 18] :=
  ⟨by decide, by intro x; simp only [List.mem_cons, List.not_mem_nil, or_false]; tauto,
    by decide, by decide,
    claim_C9 [3, 2] [2, 3] 10 [1, 2, 3, 4, 6, 8, 9, 12, 16, 18]
      [1, 2, 3, 4, 6, 8, 9, 12, 16, 18] (by decide)
      (by intro x; simp only [List.mem_cons, List.not_mem_nil, or_false]; tauto)
      (by decide) (by decide)⟩

/-- Claim C10: under the modelled semantics the merge loops of `smooth` and
`with_primes` never access a vector out of bounds and never reach the
`.expect("cannot find next index")` panic: the only panic either entry point
can produce, for any arguments whatsoever, is the arithmetic overflow. -/
theorem claim_C10 (k n : Nat) (ps : List Nat) :
    (panicKind (smooth k n) = none ∨ panicKind (smooth k n) = some Err.overflow) ∧
    (panicKind (with_primes ps n) = none ∨ panicKind (with_primes ps n) = some Err.overflow) :=
  ⟨smooth_panic k n, withPrimes_panic ps n⟩

/-- Counterexample to C7 as stated: the quantification "for each generator
configuration there is a maximal succeeding count" fails at the empty
configuration, where `with_primes(&[], n)` succeeds for every `n` and no
first failing count exists. -/
theorem claim_C7_counterexample :
    ¬ ∃ N, resultOk (with_primes [] N) = true ∧
      resultOk (with_primes [] (N + 1)) = false := by
  rintro ⟨N, _, hfail⟩
  rw [withPrimes_nil (by omega)] at hfail
  simp [resultOk] at hfail

-- HEAVY2-BEGIN
theorem pratt_ok_iff (n : Nat) : resultOk (pratt n) = true ↔ n ≤ 1344 := by
  constructor
  · intro h
    by_contra hgt
    have h45 : with_primes [2, 3] 1345 = .error .overflow := by
      rw [← pratt_eq_withPrimes]
      exact pratt_1345_overflow
    have := withPrimes_error_mono h45 (by omega : 1345 ≤ n)
    rw [pratt_eq_withPrimes, this] at h
    simp [resultOk] at h
  · intro hle
    rcases pratt_1344_fact with ⟨l, hok, _⟩
    have h44 : resultOk (with_primes [2, 3] 1344) = true := by
      rw [← pratt_eq_withPrimes, hok]
      rfl
    have := withPrimes_ok_below hle h44
    rw [pratt_eq_withPrimes]
    exact this

/-- Claim C7 (amended): `pratt(0) = []`; the last element of `pratt(1344)`
is 17991041643939889152; `pratt(1345)` fails with overflow; `pratt(n)`
succeeds exactly for `n ≤ 1344` (so the maximal succeeding count is exactly
one less than the first failing count, with no gap); and for each generator
configuration with at least one generator, all of value at least 2, there
is a count `N` such that the call succeeds exactly for `n ≤ N`.  (The
amendment restricts the last part to nonempty generator lists with values
≥ 2: the empty configuration succeeds for every `n`.) -/
theorem claim_C7_amended :
    pratt 0 = .ok [] ∧
    (∃ l, pratt 1344 = .ok l ∧ l.getLast? = some 17991041643939889152) ∧
    pratt 1345 = .error .overflow ∧
    (∀ n, resultOk (pratt n) = true ↔ n ≤ 1344) ∧
    (∀ ps : List Nat, ps ≠ [] → (∀ p ∈ ps, 2 ≤ p) →
      ∃ N, ∀ n, resultOk (with_primes ps n) = true ↔ n ≤ N) :=
  ⟨rfl, pratt_1344_fact, pratt_1345_overflow, pratt_ok_iff,
    fun _ hne hg => withPrimes_max_n hg hne⟩

/-- Witness for the amended C7 at the configuration `[2]`. -/
theorem claim_C7_witness :
    (([2] : List Nat) ≠ []) ∧ (∀ p ∈ ([2] : List Nat), 2 ≤ p) ∧
    (∃ N, ∀ n, resultOk (with_primes [2] n) = true ↔ n ≤ N) :=
  ⟨by decide, by decide, claim_C7_amended.2.2.2.2 [2] (by decide) (by decide)⟩
-- HEAVY2-END


end SmoothNumbers
